import Mathlib

/-!
Verification development for the Derivative Trading Analyzer.

The repository ships the interactive caller `App.py`; the analytical engine
it drives (`derivative_analyzer`: pricing, implied volatility, ledger, risk
aggregation, scenario projection) is specified in `spec.md` §4 but its
source file is not part of the snapshot.  Engine definitions below are
therefore modelled from the spec; caller-side computations (portfolio
overview total, quantity widget) are embedded from `App.py`.
-/

open MeasureTheory

namespace Analyzer

/-- Option side: call or put (`option_type` at the call sites in `App.py`). -/
inductive OptionType where
  | call
  | put
deriving DecidableEq, Repr

/-- Modelled from the spec (§3 "Pricing Result"): transient value object
`price, delta, gamma, theta, vega, rho`. -/
structure PricingResult where
  price : ℝ
  delta : ℝ
  gamma : ℝ
  theta : ℝ
  vega : ℝ
  rho : ℝ

/-- Modelled from the spec (§4.1): standard normal density
`exp(-x²/2)/√(2π)`. -/
noncomputable def normPdf (x : ℝ) : ℝ :=
  Real.exp (-(x ^ 2) / 2) / Real.sqrt (2 * Real.pi)

/-- Modelled from the spec (§4.1): standard normal cumulative distribution,
taken as the exact Gaussian integral. -/
noncomputable def normCdf (x : ℝ) : ℝ :=
  ∫ t in Set.Iic x, normPdf t

/-- Modelled from the spec (§4.2): `d1 = (ln(spot/strike) + (r + vol²/2)·T) / (vol·√T)`. -/
noncomputable def bsD1 (r spot strike T vol : ℝ) : ℝ :=
  (Real.log (spot / strike) + (r + vol ^ 2 / 2) * T) / (vol * Real.sqrt T)

/-- Modelled from the spec (§4.2): `d2 = d1 − vol·√T`. -/
noncomputable def bsD2 (r spot strike T vol : ℝ) : ℝ :=
  bsD1 r spot strike T vol - vol * Real.sqrt T

open Classical in
/-- Modelled from the spec (§4.2): the missing engine's
`black_scholes(spot, strike, time_to_expiry, volatility, option_type)`
at risk-free rate `r`.  Degenerate case (`T = 0` or `vol = 0`): intrinsic
value, delta ±1/0 by moneyness, other Greeks 0.  Regular case: the
closed-form Black-Scholes price and Greeks. -/
noncomputable def black_scholes (r spot strike T vol : ℝ) (ot : OptionType) :
    PricingResult :=
  if T = 0 ∨ vol = 0 then
    match ot with
    | .call =>
        { price := max (spot - strike) 0
          delta := if strike < spot then 1 else 0
          gamma := 0, theta := 0, vega := 0, rho := 0 }
    | .put =>
        { price := max (strike - spot) 0
          delta := if spot < strike then -1 else 0
          gamma := 0, theta := 0, vega := 0, rho := 0 }
  else
    match ot with
    | .call =>
        { price := spot * normCdf (bsD1 r spot strike T vol)
            - strike * Real.exp (-(r * T)) * normCdf (bsD2 r spot strike T vol)
          delta := normCdf (bsD1 r spot strike T vol)
          gamma := normPdf (bsD1 r spot strike T vol) / (spot * vol * Real.sqrt T)
          theta := -(spot * normPdf (bsD1 r spot strike T vol) * vol) / (2 * Real.sqrt T)
            - r * strike * Real.exp (-(r * T)) * normCdf (bsD2 r spot strike T vol)
          vega := spot * normPdf (bsD1 r spot strike T vol) * Real.sqrt T
          rho := strike * T * Real.exp (-(r * T)) * normCdf (bsD2 r spot strike T vol) }
    | .put =>
        { price := strike * Real.exp (-(r * T)) * normCdf (-bsD2 r spot strike T vol)
            - spot * normCdf (-bsD1 r spot strike T vol)
          delta := normCdf (bsD1 r spot strike T vol) - 1
          gamma := normPdf (bsD1 r spot strike T vol) / (spot * vol * Real.sqrt T)
          theta := -(spot * normPdf (bsD1 r spot strike T vol) * vol) / (2 * Real.sqrt T)
            + r * strike * Real.exp (-(r * T)) * normCdf (-bsD2 r spot strike T vol)
          vega := spot * normPdf (bsD1 r spot strike T vol) * Real.sqrt T
          rho := -(strike * T * Real.exp (-(r * T)) * normCdf (-bsD2 r spot strike T vol)) }

/-- The standard normal density is integrable on the line. -/
theorem integrable_normPdf : Integrable normPdf := by
  have h : Integrable fun x : ℝ => Real.exp (-(1 / 2 : ℝ) * x ^ 2) :=
    integrable_exp_neg_mul_sq (by norm_num)
  have := h.div_const (Real.sqrt (2 * Real.pi))
  refine this.congr ?_
  filter_upwards with x
  unfold normPdf
  ring_nf

/-- The standard normal density integrates to 1. -/
theorem integral_normPdf : (∫ x : ℝ, normPdf x) = 1 := by
  have h : (∫ x : ℝ, Real.exp (-(1 / 2 : ℝ) * x ^ 2)) =
      Real.sqrt (Real.pi / (1 / 2)) := integral_gaussian (1 / 2)
  have hπ : (0 : ℝ) < 2 * Real.pi := by positivity
  calc (∫ x : ℝ, normPdf x)
      = (∫ x : ℝ, Real.exp (-(1 / 2 : ℝ) * x ^ 2)) / Real.sqrt (2 * Real.pi) := by
        rw [← integral_div]
        congr 1
        funext x
        unfold normPdf
        ring_nf
    _ = Real.sqrt (2 * Real.pi) / Real.sqrt (2 * Real.pi) := by
        rw [h]
        congr 1
        ring_nf
    _ = 1 := div_self (by positivity)

/-- The standard normal density is even. -/
theorem normPdf_neg (x : ℝ) : normPdf (-x) = normPdf x := by
  unfold normPdf
  ring_nf

/-- Reflection identity for the standard normal CDF: `N(−x) = 1 − N(x)`. -/
theorem normCdf_neg (x : ℝ) : normCdf (-x) = 1 - normCdf x := by
  have hIic : IntegrableOn normPdf (Set.Iic x) := integrable_normPdf.integrableOn
  have hIoi : IntegrableOn normPdf (Set.Ioi x) := integrable_normPdf.integrableOn
  have hsplit := intervalIntegral.integral_Iic_add_Ioi hIic hIoi
  have hneg : (∫ t in Set.Ioi x, normPdf (-t)) = ∫ t in Set.Iic (-x), normPdf t :=
    integral_comp_neg_Ioi x normPdf
  have heven : (∫ t in Set.Ioi x, normPdf (-t)) = ∫ t in Set.Ioi x, normPdf t := by
    congr 1
    funext t
    exact normPdf_neg t
  have : normCdf x + normCdf (-x) = 1 := by
    unfold normCdf
    rw [← hneg, heven, hsplit, integral_normPdf]
  linarith

/-- C1: with `time_to_expiry = 0` or `volatility = 0` (and nonnegative spot
and strike), the price is the intrinsic value, delta is 1/0 (call) or −1/0
(put) by moneyness with 0 exactly at the strike, and gamma, theta, vega and
rho are all exactly 0. -/
theorem degenerate_pricing (r spot strike T vol : ℝ) (ot : OptionType)
    (_hs : 0 ≤ spot) (_hk : 0 ≤ strike) (hdeg : T = 0 ∨ vol = 0) :
    (black_scholes r spot strike T vol ot).price =
        (match ot with
         | .call => max (spot - strike) 0
         | .put => max (strike - spot) 0) ∧
    (black_scholes r spot strike T vol ot).delta =
        (match ot with
         | .call => if strike < spot then (1 : ℝ) else 0
         | .put => if spot < strike then (-1 : ℝ) else 0) ∧
    (black_scholes r spot strike T vol ot).gamma = 0 ∧
    (black_scholes r spot strike T vol ot).theta = 0 ∧
    (black_scholes r spot strike T vol ot).vega = 0 ∧
    (black_scholes r spot strike T vol ot).rho = 0 := by
  cases ot with
  | call =>
      unfold black_scholes
      rw [if_pos hdeg]
      exact ⟨rfl, by simp, rfl, rfl, rfl, rfl⟩
  | put =>
      unfold black_scholes
      rw [if_pos hdeg]
      exact ⟨rfl, by simp, rfl, rfl, rfl, rfl⟩

/-- Witness for C1 at the spec's concrete boundary point:
`price(spot=110, strike=100, T=0, vol=0.2, Call) = 10`, `delta = 1`, other
Greeks 0. -/
theorem degenerate_pricing_witness :
    (0 : ℝ) ≤ 110 ∧ (0 : ℝ) ≤ 100 ∧ ((0 : ℝ) = 0 ∨ (0.2 : ℝ) = 0) ∧
    (black_scholes 0.05 110 100 0 0.2 .call).price = 10 ∧
    (black_scholes 0.05 110 100 0 0.2 .call).delta = 1 ∧
    (black_scholes 0.05 110 100 0 0.2 .call).gamma = 0 ∧
    (black_scholes 0.05 110 100 0 0.2 .call).theta = 0 ∧
    (black_scholes 0.05 110 100 0 0.2 .call).vega = 0 ∧
    (black_scholes 0.05 110 100 0 0.2 .call).rho = 0 := by
  have h := degenerate_pricing 0.05 110 100 0 0.2 .call (by norm_num) (by norm_num)
    (Or.inl rfl)
  refine ⟨by norm_num, by norm_num, Or.inl rfl, ?_, ?_, h.2.2.1, h.2.2.2.1,
    h.2.2.2.2.1, h.2.2.2.2.2⟩
  · rw [h.1]
    norm_num
  · rw [h.2.1]
    rw [if_pos (by norm_num : (100 : ℝ) < 110)]

/-- C3: put-call parity.  For spot, strike, T, vol all positive and any
rate, `call_price − put_price = spot − strike·e^(−r·T)` to within 1e-6
(the model satisfies it exactly). -/
theorem put_call_parity (r spot strike T vol : ℝ)
    (_hs : 0 < spot) (_hk : 0 < strike) (hT : 0 < T) (hv : 0 < vol) :
    |(black_scholes r spot strike T vol .call).price
      - (black_scholes r spot strike T vol .put).price
      - (spot - strike * Real.exp (-(r * T)))| ≤ 1e-6 := by
  have hcond : ¬(T = 0 ∨ vol = 0) := by
    push_neg
    exact ⟨ne_of_gt hT, ne_of_gt hv⟩
  unfold black_scholes
  rw [if_neg hcond, if_neg hcond]
  rw [normCdf_neg (bsD2 r spot strike T vol), normCdf_neg (bsD1 r spot strike T vol)]
  have h0 : spot * normCdf (bsD1 r spot strike T vol)
      - strike * Real.exp (-(r * T)) * normCdf (bsD2 r spot strike T vol)
      - (strike * Real.exp (-(r * T)) * (1 - normCdf (bsD2 r spot strike T vol))
          - spot * (1 - normCdf (bsD1 r spot strike T vol)))
      - (spot - strike * Real.exp (-(r * T))) = 0 := by ring
  rw [h0, abs_zero]
  norm_num

/-- Witness for C3 at a concrete valid input (r=0, spot=strike=100, T=1, vol=1). -/
theorem put_call_parity_witness :
    (0 : ℝ) < 100 ∧ (0 : ℝ) < 1 ∧
    |(black_scholes 0 100 100 1 1 .call).price
      - (black_scholes 0 100 100 1 1 .put).price
      - (100 - 100 * Real.exp (-(0 * 1)))| ≤ 1e-6 :=
  ⟨by norm_num, by norm_num,
    put_call_parity 0 100 100 1 1 (by norm_num) (by norm_num) (by norm_num) (by norm_num)⟩

/-- The instrument carried by a ledger entry: an option (with strike,
time-to-expiry in years, annualized volatility, call/put side) or a linear
future (spec §3). -/
inductive Instrument where
  | option (strike T vol : ℝ) (ot : OptionType)
  | future

/-- Modelled from the spec (§3 "Position"): one ledger entry.  The
`expiration` calendar date is carried here directly as its derived
year-fraction `T` inside `Instrument.option` (365-day convention). -/
structure Position where
  underlying_price : ℝ
  quantity : ℤ
  entry_price : Option ℝ
  inst : Instrument

/-- Contract multiplier (spec §4.5): 100 for options, 1 for futures. -/
def multiplier (p : Position) : ℝ :=
  match p.inst with
  | .option _ _ _ _ => 100
  | .future => 1

/-- Modelled from the spec (§3): `current_price` is recomputed on demand
from the Pricing Engine (options) or linearly off the underlying (futures). -/
noncomputable def currentPrice (r : ℝ) (p : Position) : ℝ :=
  match p.inst with
  | .option k T v ot => (black_scholes r p.underlying_price k T v ot).price
  | .future => p.underlying_price

/-- The position ledger: association list keyed by symbol, in insertion
order (a Python dict in the engine). -/
abbrev Ledger := List (String × Position)

/-- Modelled from the spec (§4.4 `add`): dict-style insert — an existing
key's entry is replaced in place (last write wins), a fresh key is appended. -/
def add_position (led : Ledger) (sym : String) (p : Position) : Ledger :=
  if sym ∈ led.map Prod.fst then
    led.map (fun e => if e.1 = sym then (sym, p) else e)
  else led ++ [(sym, p)]

/-- Dict-style lookup by symbol. -/
def lookupPos : Ledger → String → Option Position
  | [], _ => none
  | e :: rest, s => if e.1 = s then some e.2 else lookupPos rest s

/-- Replacing the entry at a key leaves the key list unchanged. -/
theorem keys_replace (led : Ledger) (sym : String) (p : Position) :
    (led.map (fun e => if e.1 = sym then (sym, p) else e)).map Prod.fst =
      led.map Prod.fst := by
  rw [List.map_map]
  congr 1
  funext e
  by_cases h : e.1 = sym
  · simp [h]
  · simp [h]

/-- Adding under a key already present is a pure in-place replacement. -/
theorem add_position_of_mem (led : Ledger) (sym : String) (p : Position)
    (hmem : sym ∈ led.map Prod.fst) :
    add_position led sym p = led.map (fun e => if e.1 = sym then (sym, p) else e) := by
  unfold add_position
  rw [if_pos hmem]

/-- Looking up a key after replacing its entry finds the new value. -/
theorem lookup_replace (led : Ledger) (sym : String) (p : Position)
    (hmem : sym ∈ led.map Prod.fst) :
    lookupPos (led.map (fun e => if e.1 = sym then (sym, p) else e)) sym = some p := by
  induction led with
  | nil => simp at hmem
  | cons e rest ih =>
      by_cases h : e.1 = sym
      · simp [lookupPos, h]
      · have hrest : sym ∈ rest.map Prod.fst := by
          rcases List.mem_map.mp hmem with ⟨a, ha, hfst⟩
          rcases List.mem_cons.mp ha with h1 | h1
          · exact absurd (h1 ▸ hfst) h
          · exact List.mem_map.mpr ⟨a, h1, hfst⟩
        simpa [lookupPos, h] using ih hrest

/-- Looking up a symbol right after adding it finds the added position. -/
theorem lookup_add (led : Ledger) (sym : String) (p : Position) :
    lookupPos (add_position led sym p) sym = some p := by
  unfold add_position
  by_cases hmem : sym ∈ led.map Prod.fst
  · rw [if_pos hmem]
    exact lookup_replace led sym p hmem
  · rw [if_neg hmem]
    induction led with
    | nil => simp [lookupPos]
    | cons e rest ih =>
        have he : ¬(e.1 = sym) := fun h => hmem (by simp [h])
        have hrest : sym ∉ rest.map Prod.fst := fun h => hmem (by simp [h])
        simpa [lookupPos, he] using ih hrest

/-- The added symbol is always among the keys afterwards. -/
theorem mem_keys_add (led : Ledger) (sym : String) (p : Position) :
    sym ∈ (add_position led sym p).map Prod.fst := by
  unfold add_position
  by_cases hmem : sym ∈ led.map Prod.fst
  · rw [if_pos hmem, keys_replace]
    exact hmem
  · rw [if_neg hmem]
    simp

/-- Adding preserves key distinctness. -/
theorem nodup_keys_add (led : Ledger) (sym : String) (p : Position)
    (hnodup : (led.map Prod.fst).Nodup) :
    ((add_position led sym p).map Prod.fst).Nodup := by
  unfold add_position
  by_cases hmem : sym ∈ led.map Prod.fst
  · rw [if_pos hmem, keys_replace]
    exact hnodup
  · rw [if_neg hmem]
    simp only [List.map_append, List.map_cons, List.map_nil]
    exact List.Nodup.append hnodup (List.nodup_singleton sym)
      (by simpa using fun h => hmem h)

/-- C6: on a ledger with distinct symbols, adding twice under the same
symbol replaces the entry entirely: the final ledger holds exactly one
entry for that symbol, it carries the second add's attributes, and the
position count does not grow between the two adds (last write wins). -/
theorem ledger_overwrite (led : Ledger) (sym : String) (p₁ p₂ : Position)
    (hnodup : (led.map Prod.fst).Nodup) :
    lookupPos (add_position (add_position led sym p₁) sym p₂) sym = some p₂ ∧
    ((add_position (add_position led sym p₁) sym p₂).map Prod.fst).count sym = 1 ∧
    (add_position (add_position led sym p₁) sym p₂).length =
      (add_position led sym p₁).length := by
  have h1mem : sym ∈ (add_position led sym p₁).map Prod.fst := mem_keys_add led sym p₁
  have h1nodup : ((add_position led sym p₁).map Prod.fst).Nodup :=
    nodup_keys_add led sym p₁ hnodup
  have hsecond : add_position (add_position led sym p₁) sym p₂ =
      (add_position led sym p₁).map (fun e => if e.1 = sym then (sym, p₂) else e) :=
    add_position_of_mem _ sym p₂ h1mem
  refine ⟨lookup_add _ sym p₂, ?_, ?_⟩
  · rw [hsecond, keys_replace]
    exact List.count_eq_one_of_mem h1nodup h1mem
  · rw [hsecond, List.length_map]

/-- Witness for C6 on a concrete one-entry ledger. -/
theorem ledger_overwrite_witness :
    (([("AAPL_CALL_105.0", (⟨100, 1, none, .option 105 0.08 0.2 .call⟩ : Position))] :
        Ledger).map Prod.fst).Nodup ∧
    lookupPos
      (add_position
        (add_position [("AAPL_CALL_105.0", ⟨100, 1, none, .option 105 0.08 0.2 .call⟩)]
          "AAPL_CALL_105.0" ⟨100, 2, none, .option 105 0.08 0.2 .call⟩)
        "AAPL_CALL_105.0" ⟨101, 3, some 4, .option 105 0.08 0.25 .put⟩)
      "AAPL_CALL_105.0" = some ⟨101, 3, some 4, .option 105 0.08 0.25 .put⟩ := by
  have hnodup : (([("AAPL_CALL_105.0",
      (⟨100, 1, none, .option 105 0.08 0.2 .call⟩ : Position))] :
        Ledger).map Prod.fst).Nodup := by simp
  exact ⟨hnodup,
    (ledger_overwrite _ ("AAPL_CALL_105.0") ⟨100, 2, none, .option 105 0.08 0.2 .call⟩
      ⟨101, 3, some 4, .option 105 0.08 0.25 .put⟩ hnodup).1⟩

/-- The quantity widget `st.number_input("Quantity", value=1, min_value=1)`
(App.py line 77) never yields a value below its minimum of 1. -/
def quantity_input (raw : ℤ) : ℤ := max raw 1

/-- The add-option flow of `show_portfolio_manager` (App.py lines 87-98):
builds the position from the widget values and calls the engine's add;
`entry_price` is passed only when positive. -/
noncomputable def add_option_flow (led : Ledger) (sym : String)
    (underlying_price strike T vol : ℝ) (ot : OptionType) (rawQty : ℤ)
    (entry : ℝ) : Ledger :=
  add_position led sym
    { underlying_price := underlying_price
      quantity := quantity_input rawQty
      entry_price := if entry > 0 then some entry else none
      inst := .option strike T vol ot }

/-- The add-future flow of `show_portfolio_manager` (App.py lines 106-116):
`entry_price` is always supplied. -/
noncomputable def add_future_flow (led : Ledger) (sym : String)
    (underlying_price : ℝ) (rawQty : ℤ) (entry : ℝ) : Ledger :=
  add_position led sym
    { underlying_price := underlying_price
      quantity := quantity_input rawQty
      entry_price := some entry
      inst := .future }

/-- C10: every position created through the application's add-position
interface is long — the quantity widget enforces a minimum of 1 and both
the option and the future add flows pass it through unchanged, so the
entry either flow creates always has `quantity ≥ 1`. -/
theorem ui_positions_long (led : Ledger) (sym : String)
    (u k T v entry : ℝ) (ot : OptionType) (rawQty : ℤ) :
    (∃ p, lookupPos (add_option_flow led sym u k T v ot rawQty entry) sym = some p ∧
      1 ≤ p.quantity) ∧
    (∃ p, lookupPos (add_future_flow led sym u rawQty entry) sym = some p ∧
      1 ≤ p.quantity) := by
  constructor
  · exact ⟨_, lookup_add led sym _, le_max_right rawQty 1⟩
  · exact ⟨_, lookup_add led sym _, le_max_right rawQty 1⟩

/-- Aggregated portfolio Greeks (spec §4.5): component-wise sums. -/
structure GreeksAgg where
  delta : ℝ
  gamma : ℝ
  theta : ℝ
  vega : ℝ
  rho : ℝ

/-- Modelled from the spec (§4.5 `portfolio_greeks`): an Option position's
Greeks are scaled by `quantity × 100`; a Future contributes `delta = quantity`
and zero elsewhere. -/
noncomputable def positionGreeks (r : ℝ) (p : Position) : GreeksAgg :=
  match p.inst with
  | .option k T v ot =>
      { delta := (black_scholes r p.underlying_price k T v ot).delta * (p.quantity : ℝ) * 100
        gamma := (black_scholes r p.underlying_price k T v ot).gamma * (p.quantity : ℝ) * 100
        theta := (black_scholes r p.underlying_price k T v ot).theta * (p.quantity : ℝ) * 100
        vega := (black_scholes r p.underlying_price k T v ot).vega * (p.quantity : ℝ) * 100
        rho := (black_scholes r p.underlying_price k T v ot).rho * (p.quantity : ℝ) * 100 }
  | .future => ⟨(p.quantity : ℝ), 0, 0, 0, 0⟩

/-- Modelled from the spec (§4.5): component-wise sum of position Greeks. -/
noncomputable def portfolio_greeks (r : ℝ) (led : Ledger) : GreeksAgg :=
  { delta := (led.map (fun e => (positionGreeks r e.2).delta)).sum
    gamma := (led.map (fun e => (positionGreeks r e.2).gamma)).sum
    theta := (led.map (fun e => (positionGreeks r e.2).theta)).sum
    vega := (led.map (fun e => (positionGreeks r e.2).vega)).sum
    rho := (led.map (fun e => (positionGreeks r e.2).rho)).sum }

/-- Modelled from the spec (§4.5): the configured default volatility used
for futures in VaR (the spec leaves the numeric value to configuration). -/
def futuresDefaultVol : ℝ := 0.2

/-- The volatility a position contributes to the VaR formula. -/
def posVol (p : Position) : ℝ :=
  match p.inst with
  | .option _ _ v _ => v
  | .future => futuresDefaultVol

/-- The per-unit delta of a position's instrument (spec §4.2: futures have
`delta = quantity`). -/
noncomputable def unitDelta (r : ℝ) (p : Position) : ℝ :=
  match p.inst with
  | .option k T v ot => (black_scholes r p.underlying_price k T v ot).delta
  | .future => (p.quantity : ℝ)

/-- Modelled from the spec (§4.5): one-day dollar standard deviation
`σ$ = |delta × multiplier| × underlying_price × volatility / √252`. -/
noncomputable def sigmaDollar (r : ℝ) (p : Position) : ℝ :=
  |unitDelta r p * multiplier p| * p.underlying_price * posVol p / Real.sqrt 252

/-- Modelled from the spec (§3 "Risk Snapshot"). -/
structure RiskSnapshot where
  portfolio_value : ℝ
  var_95 : ℝ
  position_count : ℕ
  diversification_score : ℝ

/-- Signed market value of a position: `current_price × quantity × multiplier`. -/
noncomputable def marketValue (r : ℝ) (p : Position) : ℝ :=
  currentPrice r p * (p.quantity : ℝ) * multiplier p

/-- Total absolute notional of the ledger. -/
noncomputable def totalAbsMV (r : ℝ) (led : Ledger) : ℝ :=
  (led.map (fun e => |marketValue r e.2|)).sum

open Classical in
/-- Modelled from the spec (§4.5): `1 − Herfindahl` over absolute-notional
weights, with 0 for a ledger of zero total notional (in particular empty). -/
noncomputable def diversification_score (r : ℝ) (led : Ledger) : ℝ :=
  if totalAbsMV r led = 0 then 0
  else 1 - (led.map (fun e => (|marketValue r e.2| / totalAbsMV r led) ^ 2)).sum

/-- Modelled from the spec (§4.5 `risk_metrics`). -/
noncomputable def risk_metrics (r : ℝ) (led : Ledger) : RiskSnapshot :=
  { portfolio_value := (led.map (fun e => marketValue r e.2)).sum
    var_95 := 1.645 * Real.sqrt ((led.map (fun e => sigmaDollar r e.2 ^ 2)).sum)
    position_count := led.length
    diversification_score := diversification_score r led }

/-- Modelled from the spec (§4.6): the shocked price of one position —
options repriced through the very Pricing Engine of §4.2 at
`spot' = underlying × (1 + pc)`, `T' = max(T − days/365, 0)`,
`vol' = max(vol + vc, 1e-6)`; futures linearly at `spot'`. -/
noncomputable def shockedPrice (r pc vc days : ℝ) (p : Position) : ℝ :=
  match p.inst with
  | .option k T v ot =>
      (black_scholes r (p.underlying_price * (1 + pc)) k (max (T - days / 365) 0)
        (max (v + vc) 1e-6) ot).price
  | .future => p.underlying_price * (1 + pc)

/-- Baseline for P&L: the stored entry price if set, else the unshocked
model price (spec §4.6). -/
noncomputable def baselinePrice (r : ℝ) (p : Position) : ℝ :=
  p.entry_price.getD (currentPrice r p)

/-- Position P&L: `(shocked price − baseline) × quantity × multiplier` (spec §4.6). -/
noncomputable def positionPnl (r pc vc days : ℝ) (p : Position) : ℝ :=
  (shockedPrice r pc vc days p - baselinePrice r p) * (p.quantity : ℝ) * multiplier p

open Classical in
/-- Percentage P&L, 0 when the baseline notional is zero (spec §4.6). -/
noncomputable def positionPnlPercent (r pc vc days : ℝ) (p : Position) : ℝ :=
  if |baselinePrice r p * (p.quantity : ℝ) * multiplier p| = 0 then 0
  else positionPnl r pc vc days p
    / |baselinePrice r p * (p.quantity : ℝ) * multiplier p| * 100

/-- Modelled from the spec (§3 "Scenario Result"): per-symbol
`(pnl, pnl_percent)` plus the aggregate. -/
structure ScenarioResult where
  positions : List (String × ℝ × ℝ)
  total_pnl : ℝ

/-- Modelled from the spec (§4.6 `project` / the engine's
`profit_loss_analysis` invoked from App.py lines 302-305). -/
noncomputable def profit_loss_analysis (r pc vc days : ℝ) (led : Ledger) :
    ScenarioResult :=
  { positions := led.map (fun e =>
      (e.1, positionPnl r pc vc days e.2, positionPnlPercent r pc vc days e.2))
    total_pnl := (led.map (fun e => positionPnl r pc vc days e.2)).sum }

/-- C2: the scenario engine prices shocked positions through the same
`black_scholes` the quoting screen calls — for every option position the
shocked price is exactly the Pricing Engine's output at
`spot' = underlying × (1 + pc)`, `T' = max(T − days/365, 0)`,
`vol' = max(vol + vc, 1e-6)`, and the projected P&L is assembled from those
same shocked prices. -/
theorem scenario_reuses_pricer (r pc vc days : ℝ) (led : Ledger) (p : Position)
    (k T v : ℝ) (ot : OptionType) (hopt : p.inst = .option k T v ot) :
    shockedPrice r pc vc days p =
      (black_scholes r (p.underlying_price * (1 + pc)) k (max (T - days / 365) 0)
        (max (v + vc) 1e-6) ot).price ∧
    (profit_loss_analysis r pc vc days led).total_pnl =
      (led.map (fun e =>
        (shockedPrice r pc vc days e.2 - baselinePrice r e.2) * (e.2.quantity : ℝ)
          * multiplier e.2)).sum := by
  constructor
  · unfold shockedPrice
    rw [hopt]
  · rfl

/-- Witness for C2 on a concrete option position and shock. -/
theorem scenario_reuses_pricer_witness :
    (Position.mk 110 1 none (.option 100 0 0.2 .call)).inst = .option 100 0 0.2 .call ∧
    shockedPrice 0 0 0 0 (Position.mk 110 1 none (.option 100 0 0.2 .call)) =
      (black_scholes 0 (110 * (1 + 0)) 100 (max (0 - 0 / 365) 0)
        (max (0.2 + 0) 1e-6) .call).price :=
  ⟨rfl, (scenario_reuses_pricer 0 0 0 0 [] _ 100 0 0.2 .call rfl).1⟩

/-- C7: on an empty ledger every aggregate succeeds with zero/empty
results — all portfolio Greeks are 0, the risk snapshot is all zeros, and
any scenario projection yields `total_pnl = 0` with an empty per-symbol
mapping. -/
theorem empty_portfolio_aggregates (r pc vc days : ℝ) :
    portfolio_greeks r [] = ⟨0, 0, 0, 0, 0⟩ ∧
    risk_metrics r [] = ⟨0, 0, 0, 0⟩ ∧
    (profit_loss_analysis r pc vc days []).total_pnl = 0 ∧
    (profit_loss_analysis r pc vc days []).positions = [] := by
  refine ⟨?_, ?_, rfl, rfl⟩
  · unfold portfolio_greeks
    simp
  · unfold risk_metrics diversification_score totalAbsMV
    simp

/-- For a list of nonnegative reals the sum of squares is at most the
square of the sum. -/
theorem sum_sq_le_sq_sum (l : List ℝ) (h : ∀ x ∈ l, 0 ≤ x) :
    (l.map (fun x => x ^ 2)).sum ≤ l.sum ^ 2 := by
  induction l with
  | nil => simp
  | cons a t ih =>
      have ha : 0 ≤ a := h a (by simp)
      have ht : ∀ x ∈ t, 0 ≤ x := fun x hx => h x (by simp [hx])
      have hts : 0 ≤ t.sum := List.sum_nonneg ht
      have hih := ih ht
      simp only [List.map_cons, List.sum_cons]
      nlinarith [sq_nonneg a, sq_nonneg t.sum]

/-- Dividing each mapped term divides the sum. -/
theorem sum_map_div {α : Type} (l : List α) (f : α → ℝ) (c : ℝ) :
    (l.map (fun x => f x / c)).sum = (l.map f).sum / c := by
  induction l with
  | nil => simp
  | cons a t ih => simp [ih, add_div]

/-- A map that is constant on the list sums to `length × constant`. -/
theorem sum_map_const {α : Type} (l : List α) (f : α → ℝ) (c : ℝ)
    (h : ∀ x ∈ l, f x = c) :
    (l.map f).sum = l.length * c := by
  induction l with
  | nil => simp
  | cons a t ih =>
      have ha : f a = c := h a (by simp)
      have ht : ∀ x ∈ t, f x = c := fun x hx => h x (by simp [hx])
      simp [ha, ih ht, add_mul]
      ring

/-- The total absolute notional is nonnegative. -/
theorem totalAbsMV_nonneg (r : ℝ) (led : Ledger) : 0 ≤ totalAbsMV r led :=
  List.sum_nonneg (by
    intro x hx
    rcases List.mem_map.mp hx with ⟨e, _, he⟩
    exact he ▸ abs_nonneg _)

/-- C8: the diversification score is `1 − Herfindahl` over absolute-notional
weights; it always lies in `[0,1]`, is 0 on an empty ledger and on any single
position, and equals `1 − 1/N` for `N` equal-notional positions. -/
theorem diversification_properties :
    (∀ r : ℝ, ∀ led : Ledger, totalAbsMV r led ≠ 0 →
      diversification_score r led =
        1 - (led.map (fun e => (|marketValue r e.2| / totalAbsMV r led) ^ 2)).sum) ∧
    (∀ r : ℝ, ∀ led : Ledger,
      0 ≤ diversification_score r led ∧ diversification_score r led ≤ 1) ∧
    (∀ r : ℝ, diversification_score r [] = 0) ∧
    (∀ r : ℝ, ∀ e : String × Position, diversification_score r [e] = 0) ∧
    (∀ r : ℝ, ∀ led : Ledger, ∀ c : ℝ, led ≠ [] → 0 < c →
      (∀ e ∈ led, |marketValue r e.2| = c) →
      diversification_score r led = 1 - 1 / led.length) := by
  have hformula : ∀ r : ℝ, ∀ led : Ledger, totalAbsMV r led ≠ 0 →
      diversification_score r led =
        1 - (led.map (fun e => (|marketValue r e.2| / totalAbsMV r led) ^ 2)).sum := by
    intro r led h
    unfold diversification_score
    rw [if_neg h]
  refine ⟨hformula, ?_, ?_, ?_, ?_⟩
  · intro r led
    by_cases h : totalAbsMV r led = 0
    · unfold diversification_score
      rw [if_pos h]
      norm_num
    · have hpos : 0 < totalAbsMV r led := lt_of_le_of_ne (totalAbsMV_nonneg r led) (Ne.symm h)
      rw [hformula r led h]
      have hwnn : ∀ x ∈ led.map (fun e => |marketValue r e.2| / totalAbsMV r led), 0 ≤ x := by
        intro x hx
        rcases List.mem_map.mp hx with ⟨e, _, he⟩
        exact he ▸ div_nonneg (abs_nonneg _) (le_of_lt hpos)
      have hH0 : 0 ≤ (led.map (fun e => (|marketValue r e.2| / totalAbsMV r led) ^ 2)).sum :=
        List.sum_nonneg (by
          intro x hx
          rcases List.mem_map.mp hx with ⟨e, _, he⟩
          exact he ▸ sq_nonneg _)
      have hsum1 : (led.map (fun e => |marketValue r e.2| / totalAbsMV r led)).sum = 1 := by
        rw [sum_map_div led (fun e => |marketValue r e.2|) (totalAbsMV r led)]
        exact div_self h
      have hH1 : (led.map (fun e => (|marketValue r e.2| / totalAbsMV r led) ^ 2)).sum ≤ 1 := by
        have := sum_sq_le_sq_sum _ hwnn
        rw [List.map_map] at this
        rw [hsum1] at this
        simpa using this
      constructor
      · linarith
      · linarith
  · intro r
    unfold diversification_score totalAbsMV
    simp
  · intro r e
    by_cases h : totalAbsMV r [e] = 0
    · unfold diversification_score
      rw [if_pos h]
    · rw [hformula r [e] h]
      have h1 : totalAbsMV r [e] = |marketValue r e.2| := by
        unfold totalAbsMV
        simp
      rw [h1] at h ⊢
      simp only [List.map_cons, List.map_nil, List.sum_cons, List.sum_nil]
      rw [div_self h]
      norm_num
  · intro r led c hne hc hall
    have hlen : 0 < led.length := List.length_pos.mpr hne
    have htot : totalAbsMV r led = led.length * c :=
      sum_map_const led (fun e => |marketValue r e.2|) c hall
    have hNne : (led.length : ℝ) ≠ 0 := Nat.cast_ne_zero.mpr hlen.ne'
    have htotne : totalAbsMV r led ≠ 0 := by
      rw [htot]
      exact mul_ne_zero hNne (ne_of_gt hc)
    rw [hformula r led htotne]
    have hterm : ∀ e ∈ led,
        (fun e : String × Position => (|marketValue r e.2| / totalAbsMV r led) ^ 2) e =
          (1 / led.length : ℝ) ^ 2 := by
      intro e he
      simp only
      rw [hall e he, htot]
      congr 1
      field_simp
      ring
    rw [sum_map_const led _ _ hterm]
    have : (led.length : ℝ) * (1 / led.length : ℝ) ^ 2 = 1 / led.length := by
      field_simp
      ring
    rw [this]

/-- Witness for C8 on two equal-notional future positions (each of market
value 1): the score is `1 − 1/2`. -/
theorem diversification_properties_witness :
    (([("F1", ⟨1, 1, some 1, .future⟩), ("F2", ⟨1, 1, some 1, .future⟩)] : Ledger) ≠ []) ∧
    (0 : ℝ) < 1 ∧
    (∀ e ∈ ([("F1", ⟨1, 1, some 1, .future⟩), ("F2", ⟨1, 1, some 1, .future⟩)] : Ledger),
      |marketValue 0 e.2| = 1) ∧
    diversification_score 0
      [("F1", ⟨1, 1, some 1, .future⟩), ("F2", ⟨1, 1, some 1, .future⟩)] =
        1 - 1 / (([("F1", ⟨1, 1, some 1, .future⟩),
          ("F2", ⟨1, 1, some 1, .future⟩)] : Ledger).length) := by
  have hall : ∀ e ∈ ([("F1", ⟨1, 1, some 1, .future⟩),
      ("F2", ⟨1, 1, some 1, .future⟩)] : Ledger), |marketValue 0 e.2| = 1 := by
    intro e he
    simp only [List.mem_cons, List.mem_singleton, List.not_mem_nil, or_false] at he
    rcases he with he | he
    · subst he
      simp [marketValue, currentPrice, multiplier]
    · subst he
      simp [marketValue, currentPrice, multiplier]
  exact ⟨by simp, by norm_num, hall,
    diversification_properties.2.2.2.2 0 _ 1 (by simp) (by norm_num) hall⟩

/-- Portfolio Manager overview total (App.py lines 133-136):
`sum(pos['current_price'] * abs(pos['quantity']) for pos in portfolio.values())`. -/
noncomputable def app_total_value (r : ℝ) (led : Ledger) : ℝ :=
  (led.map (fun e => currentPrice r e.2 * |(e.2.quantity : ℝ)|)).sum

/-- C9: the Portfolio Manager's displayed total is sign-insensitive in the
quantities and applies no contract multiplier, so it differs from the Risk
Snapshot's `portfolio_value` (signed quantity, option multiplier 100) — on
a concrete one-option portfolio the two disagree. -/
theorem overview_total_vs_portfolio_value :
    (∀ r : ℝ, ∀ led : Ledger,
      app_total_value r
        (led.map (fun e => (e.1, { e.2 with quantity := -e.2.quantity }))) =
        app_total_value r led) ∧
    (∃ r : ℝ, ∃ led : Ledger, led ≠ [] ∧
      app_total_value r led ≠ (risk_metrics r led).portfolio_value) := by
  constructor
  · intro r led
    unfold app_total_value
    rw [List.map_map]
    congr 1
    refine List.map_congr_left ?_
    intro e _
    have h1 : currentPrice r { e.2 with quantity := -e.2.quantity } = currentPrice r e.2 := rfl
    simp only [Function.comp_apply, h1]
    congr 1
    push_cast
    exact abs_neg _
  · refine ⟨0, [("C", ⟨110, 1, none, .option 100 0 0.2 .call⟩)], by simp, ?_⟩
    have hprice : currentPrice 0 (⟨110, 1, none, .option 100 0 0.2 .call⟩ : Position) = 10 := by
      show (black_scholes 0 110 100 0 0.2 .call).price = 10
      unfold black_scholes
      rw [if_pos (Or.inl rfl)]
      norm_num
    unfold app_total_value risk_metrics marketValue
    simp only [List.map_cons, List.map_nil, List.sum_cons, List.sum_nil, hprice]
    unfold multiplier
    norm_num

/-- The engine's failure taxonomy (spec §7). -/
inductive EngineError where
  | invalidInput
  | noConvergence
deriving DecidableEq

/-- The model price as a function of volatility, as seen by the solver
(the solver inverts the very Pricing Engine of §4.2). -/
noncomputable def ivPrice (r spot strike T : ℝ) (ot : OptionType) (vol : ℝ) : ℝ :=
  (black_scholes r spot strike T vol ot).price

/-- Vega as a function of volatility, for the Newton step. -/
noncomputable def ivVega (r spot strike T : ℝ) (ot : OptionType) (vol : ℝ) : ℝ :=
  (black_scholes r spot strike T vol ot).vega

open Classical in
/-- Clamp to the solver's volatility bounds `(1e-6, 5.0)` (spec §4.3). -/
noncomputable def clampVol (v : ℝ) : ℝ := max 1e-6 (min v 5)

open Classical in
/-- Modelled from the spec (§4.3): the bisection iteration — succeed at the
midpoint once the price tolerance is met, otherwise keep the sub-interval
whose endpoint signs differ; out of steps means `NoConvergence`. -/
noncomputable def bisectLoop (f : ℝ → ℝ) (m : ℝ) : ℕ → ℝ → ℝ → Except EngineError ℝ
  | 0, _, _ => .error .noConvergence
  | Nat.succ n, lo, hi =>
      if |f ((lo + hi) / 2) - m| < 1e-6 then .ok ((lo + hi) / 2)
      else if (f lo - m) * (f ((lo + hi) / 2) - m) < 0 then
        bisectLoop f m n lo ((lo + hi) / 2)
      else bisectLoop f m n ((lo + hi) / 2) hi

open Classical in
/-- Modelled from the spec (§4.3): the bisection fallback over
`(1e-6, 5.0)` — `NoConvergence` when the endpoints fail to bracket a root,
else 100 bisection steps. -/
noncomputable def bisect (f : ℝ → ℝ) (m : ℝ) : Except EngineError ℝ :=
  if 0 < (f 1e-6 - m) * (f 5 - m) then .error .noConvergence
  else bisectLoop f m 100 1e-6 5

open Classical in
/-- Modelled from the spec (§4.3): the Newton-Raphson iteration — succeed
once the price tolerance is met, fall back to bisection when vega is below
1e-10 or the iteration budget runs out, otherwise take a clamped Newton
step. -/
noncomputable def newtonLoop (f fv : ℝ → ℝ) (m : ℝ) : ℕ → ℝ → Except EngineError ℝ
  | 0, _ => bisect f m
  | Nat.succ n, vol =>
      if |f vol - m| < 1e-6 then .ok vol
      else if |fv vol| < 1e-10 then bisect f m
      else newtonLoop f fv m n (clampVol (vol - (f vol - m) / fv vol))

/-- Modelled from the spec (§4.3): `calculate_implied_volatility`
(imported and called by App.py lines 176-183) — Newton seeded at 0.2 with
a 100-iteration budget. -/
noncomputable def calculate_implied_volatility (spot strike T market : ℝ)
    (ot : OptionType) (rate : ℝ) : Except EngineError ℝ :=
  newtonLoop (ivPrice rate spot strike T ot) (ivVega rate spot strike T ot) market 100 0.2

/-- A successful Newton step with tolerance met returns the current iterate. -/
theorem newtonLoop_succ_ok (f fv : ℝ → ℝ) (m : ℝ) (n : ℕ) (vol : ℝ)
    (h : |f vol - m| < 1e-6) :
    newtonLoop f fv m (n + 1) vol = .ok vol := by
  unfold newtonLoop
  rw [if_pos h]

/-- Any value the bisection loop returns lies strictly between 0 and the
two (positive) bracket endpoints' bound and meets the price tolerance. -/
theorem bisectLoop_ok (f : ℝ → ℝ) (m : ℝ) (n : ℕ) :
    ∀ lo hi v, 0 < lo → 0 < hi → bisectLoop f m n lo hi = .ok v →
      0 < v ∧ |f v - m| < 1e-6 := by
  induction n with
  | zero =>
      intro lo hi v _ _ h
      simp [bisectLoop] at h
  | succ n ih =>
      intro lo hi v hlo hhi h
      unfold bisectLoop at h
      by_cases htol : |f ((lo + hi) / 2) - m| < 1e-6
      · rw [if_pos htol] at h
        have hv : v = (lo + hi) / 2 := by
          cases h
          rfl
        subst hv
        exact ⟨by linarith, htol⟩
      · rw [if_neg htol] at h
        by_cases hsign : (f lo - m) * (f ((lo + hi) / 2) - m) < 0
        · rw [if_pos hsign] at h
          exact ih lo ((lo + hi) / 2) v hlo (by linarith) h
        · rw [if_neg hsign] at h
          exact ih ((lo + hi) / 2) hi v (by linarith) hhi h

/-- The bisection loop only ever fails with `NoConvergence`. -/
theorem bisectLoop_err (f : ℝ → ℝ) (m : ℝ) (n : ℕ) :
    ∀ lo hi e, bisectLoop f m n lo hi = .error e → e = .noConvergence := by
  induction n with
  | zero =>
      intro lo hi e h
      simp [bisectLoop] at h
      exact h.symm
  | succ n ih =>
      intro lo hi e h
      unfold bisectLoop at h
      by_cases htol : |f ((lo + hi) / 2) - m| < 1e-6
      · rw [if_pos htol] at h
        cases h
      · rw [if_neg htol] at h
        by_cases hsign : (f lo - m) * (f ((lo + hi) / 2) - m) < 0
        · rw [if_pos hsign] at h
          exact ih lo ((lo + hi) / 2) e h
        · rw [if_neg hsign] at h
          exact ih ((lo + hi) / 2) hi e h

/-- Bisection success: a strictly positive volatility meeting the tolerance. -/
theorem bisect_ok (f : ℝ → ℝ) (m v : ℝ) (h : bisect f m = .ok v) :
    0 < v ∧ |f v - m| < 1e-6 := by
  unfold bisect at h
  by_cases hb : 0 < (f 1e-6 - m) * (f 5 - m)
  · rw [if_pos hb] at h
    cases h
  · rw [if_neg hb] at h
    exact bisectLoop_ok f m 100 1e-6 5 v (by norm_num) (by norm_num) h

/-- Bisection failure is always `NoConvergence`. -/
theorem bisect_err (f : ℝ → ℝ) (m : ℝ) (e : EngineError)
    (h : bisect f m = .error e) : e = .noConvergence := by
  unfold bisect at h
  by_cases hb : 0 < (f 1e-6 - m) * (f 5 - m)
  · rw [if_pos hb] at h
    cases h
    rfl
  · rw [if_neg hb] at h
    exact bisectLoop_err f m 100 1e-6 5 e h

/-- Newton success from a positive iterate: a strictly positive volatility
meeting the tolerance. -/
theorem newtonLoop_ok (f fv : ℝ → ℝ) (m : ℝ) (n : ℕ) :
    ∀ vol v, 0 < vol → newtonLoop f fv m n vol = .ok v →
      0 < v ∧ |f v - m| < 1e-6 := by
  induction n with
  | zero =>
      intro vol v _ h
      exact bisect_ok f m v h
  | succ n ih =>
      intro vol v hvol h
      unfold newtonLoop at h
      by_cases htol : |f vol - m| < 1e-6
      · rw [if_pos htol] at h
        have hv : v = vol := by
          cases h
          rfl
        subst hv
        exact ⟨hvol, htol⟩
      · rw [if_neg htol] at h
        by_cases hflat : |fv vol| < 1e-10
        · rw [if_pos hflat] at h
          exact bisect_ok f m v h
        · rw [if_neg hflat] at h
          refine ih (clampVol (vol - (f vol - m) / fv vol)) v ?_ h
          have : (1e-6 : ℝ) ≤ clampVol (vol - (f vol - m) / fv vol) :=
            le_max_left _ _
          linarith

/-- Newton failure is always `NoConvergence`. -/
theorem newtonLoop_err (f fv : ℝ → ℝ) (m : ℝ) (n : ℕ) :
    ∀ vol e, newtonLoop f fv m n vol = .error e → e = .noConvergence := by
  induction n with
  | zero =>
      intro vol e h
      exact bisect_err f m e h
  | succ n ih =>
      intro vol e h
      unfold newtonLoop at h
      by_cases htol : |f vol - m| < 1e-6
      · rw [if_pos htol] at h
        cases h
      · rw [if_neg htol] at h
        by_cases hflat : |fv vol| < 1e-10
        · rw [if_pos hflat] at h
          exact bisect_err f m e h
        · rw [if_neg hflat] at h
          exact ih _ e h

/-- C4: the implied-volatility solver either returns a strictly positive
volatility whose model price meets the 1e-6 tolerance (so never the seed or
a clamp boundary with the tolerance unmet), or fails, and every failure is
the distinct `NoConvergence` error. -/
theorem implied_vol_solver_sound (spot strike T market rate : ℝ) (ot : OptionType) :
    (∀ v, calculate_implied_volatility spot strike T market ot rate = .ok v →
      0 < v ∧ |ivPrice rate spot strike T ot v - market| < 1e-6) ∧
    (∀ e, calculate_implied_volatility spot strike T market ot rate = .error e →
      e = .noConvergence) := by
  constructor
  · intro v h
    exact newtonLoop_ok (ivPrice rate spot strike T ot) (ivVega rate spot strike T ot)
      market 100 0.2 v (by norm_num) h
  · intro e h
    exact newtonLoop_err (ivPrice rate spot strike T ot) (ivVega rate spot strike T ot)
      market 100 0.2 e h

/-- Witness for C4: at the degenerate input `spot=110, strike=100, T=0`
with market price 10 (the intrinsic value) the solver succeeds at the
seed's first tolerance check, and the theorem yields positivity and the
met tolerance there. -/
theorem implied_vol_solver_sound_witness :
    calculate_implied_volatility 110 100 0 10 .call 0 = .ok 0.2 ∧
    (0 : ℝ) < 0.2 ∧ |ivPrice 0 110 100 0 .call 0.2 - 10| < 1e-6 := by
  have hprice : ivPrice 0 110 100 0 .call 0.2 = 10 := by
    show (black_scholes 0 110 100 0 0.2 .call).price = 10
    unfold black_scholes
    rw [if_pos (Or.inl rfl)]
    norm_num
  have htol : |ivPrice 0 110 100 0 .call 0.2 - 10| < 1e-6 := by
    rw [hprice]
    norm_num
  have heval : calculate_implied_volatility 110 100 0 10 .call 0 = .ok 0.2 := by
    unfold calculate_implied_volatility
    show newtonLoop _ _ _ (99 + 1) 0.2 = _
    exact newtonLoop_succ_ok _ _ _ 99 0.2 htol
  exact ⟨heval,
    ((implied_vol_solver_sound 110 100 0 10 0 .call).1 0.2 heval).1,
    ((implied_vol_solver_sound 110 100 0 10 0 .call).1 0.2 heval).2⟩

end Analyzer
